import Mathlib

/-!
Verification development for a library of synchronization primitives
(binary semaphore, counting semaphore, mutex, lock-free queue, RCU list).

The stateful Rust code is embedded shallowly: raw pointers become natural
addresses into an explicit heap (a function from addresses to optional
nodes), allocation is modelled by a monotone `alloc` counter supplying
fresh addresses (`Box::into_raw` of a fresh box), and `Box::from_raw`
followed by drop removes the address from the heap.  All operations are
specialised to the single-threaded (sequential, quiescent) semantics: a
`compare_exchange` whose expected value was just loaded by the same thread
succeeds, and no other thread interleaves.
-/

/-- A linked node: one element plus an optional successor address.  Models
`Node<T> { elem: T, next: Option<NonNull<Node<T>>> }` of the queue and
`Node<T> { elem: T, next: AtomicPtr<Node<T>> }` of the RCU list (a null
`AtomicPtr` is `none`). -/
structure Node (α : Type) where
  elem : α
  next : Option Nat
deriving Repr, DecidableEq

/-- The heap: a map from addresses to allocated nodes. -/
def Heap (α : Type) : Type := Nat → Option (Node α)

/-- Allocate / overwrite the node stored at address `a`. -/
def hupd {α : Type} (h : Heap α) (a : Nat) (n : Node α) : Heap α :=
  fun i => if i = a then some n else h i

/-- Deallocate the node at address `a` (models `Box::from_raw` + drop). -/
def hfree {α : Type} (h : Heap α) (a : Nat) : Heap α :=
  fun i => if i = a then none else h i

/-- The empty heap. -/
def hempty {α : Type} : Heap α := fun _ => none

/-! ## LockFreeQueue (src/queue_based_lock.rs)

`Queue<T> { head: AtomicPtr<Node<T>>, tail: AtomicPtr<Node<T>> }`, plus the
model's heap and allocation counter. -/

structure Queue (α : Type) where
  heap : Heap α
  head : Option Nat
  tail : Option Nat
  alloc : Nat

/-- `Queue::new`: both pointers null. -/
def Queue.new {α : Type} : Queue α := ⟨hempty, none, none, 0⟩

/-- `Queue::push`, sequential semantics.  A fresh node `{elem, next: None}`
is allocated at address `a`.  If the loaded `tail` is null, the
compare-exchange of `tail` from null to `a` succeeds and `head` is then
stored as `a`.  Otherwise the compare-exchange of `tail` from the old
tail `t` to `a` succeeds and the old tail's `next` field is set to `a`
(`(*ptr).next = Some(new_tail)`); the second `match` arm guards the
dereference of `t`, which under the structural invariant is always
allocated. -/
def Queue.push {α : Type} (q : Queue α) (x : α) : Queue α :=
  match q.tail with
  | none => ⟨hupd q.heap q.alloc ⟨x, none⟩, some q.alloc, some q.alloc, q.alloc + 1⟩
  | some t =>
    match hupd q.heap q.alloc ⟨x, none⟩ t with
    | some tn => ⟨hupd (hupd q.heap q.alloc ⟨x, none⟩) t ⟨tn.elem, some q.alloc⟩,
        q.head, some q.alloc, q.alloc + 1⟩
    | none => ⟨hupd q.heap q.alloc ⟨x, none⟩, q.head, some q.alloc, q.alloc + 1⟩

/-- `Queue::pop`, sequential semantics.  A null `head` returns `None` and
leaves the state untouched.  Otherwise the compare-exchange of `head` from
the loaded head `hd` to `(*hd).next` succeeds; if the popped node had no
successor, `tail` is compare-exchanged from `hd` to null (succeeding only
if `tail` still equals `hd`); finally the popped node is deallocated and
its element returned.  The inner `none` arm guards the dereference of
`hd`, unreachable under the structural invariant. -/
def Queue.pop {α : Type} (q : Queue α) : Option α × Queue α :=
  match q.head with
  | none => (none, q)
  | some hd =>
    match q.heap hd with
    | none => (none, q)
    | some node =>
      (some node.elem, ⟨hfree q.heap hd, node.next,
        if node.next = none then (if q.tail = some hd then none else q.tail) else q.tail,
        q.alloc⟩)

/-! ## RcuList (src/rcu.rs)

`List<T> { head, tail: AtomicPtr<Node<T>>, len: AtomicUsize, semaphore }`.
Both mutators acquire the binary semaphore for their whole duration and
release it before returning; sequentially the semaphore round-trips from
`free` back to `free` and is omitted from the state.  The `tail` pointer
exists in the struct but no method ever stores to it. -/

structure RcuList (α : Type) where
  heap : Heap α
  head : Option Nat
  tail : Option Nat
  len : Nat
  alloc : Nat

/-- `List::new`: null head and tail, length 0. -/
def RcuList.new {α : Type} : RcuList α := ⟨hempty, none, none, 0, 0⟩

/-- `List::push_front`: allocate a node whose `next` is null, then (when the
loaded head is non-null) set its `next` to the current head — net effect:
`next` equals the current head either way; store the node as `head`;
`fetch_add(1)` the length.  `tail` is loaded but never written. -/
def RcuList.push_front {α : Type} (s : RcuList α) (x : α) : RcuList α :=
  ⟨hupd s.heap s.alloc ⟨x, s.head⟩, some s.alloc, s.tail, s.len + 1, s.alloc + 1⟩

/-- `List::pop_front`: a null head returns `None` with the state untouched;
otherwise take ownership of the head node (`Box::from_raw`), store its
`next` as the new head, `fetch_sub(1)` the length, and return the element.
The source's `fetch_sub` wraps on `usize`; under the length invariant the
decrement only ever runs with `len ≥ 1`, where wrapping and truncated
subtraction agree.  The inner `none` arm guards the dereference of the
head address, unreachable under the invariant. -/
def RcuList.pop_front {α : Type} (s : RcuList α) : Option α × RcuList α :=
  match s.head with
  | none => (none, s)
  | some hd =>
    match s.heap hd with
    | none => (none, s)
    | some node =>
      (some node.elem, ⟨hfree s.heap hd, node.next, s.tail, s.len - 1, s.alloc⟩)

/-- `List::is_empty`: `len() == 0`. -/
def RcuList.is_empty {α : Type} (s : RcuList α) : Bool := s.len == 0

/-- Read out the elements from `head` following `next` links (the traversal
of the `Debug` impl); `fuel` bounds the walk, and `alloc` fuel suffices for
any chain of distinct allocated addresses. -/
def readAux {α : Type} (h : Heap α) : Nat → Option Nat → List α
  | _, none => []
  | 0, some _ => []
  | fuel + 1, some a =>
    match h a with
    | none => []
    | some n => n.elem :: readAux h fuel n.next

/-- The element sequence of an `RcuList`, head first. -/
def RcuList.readList {α : Type} (s : RcuList α) : List α :=
  readAux s.heap s.alloc s.head

/-! ## Chains of linked nodes

`chainSeg h p l e` says: starting at pointer `p` and following `next`
fields through heap `h`, one traverses exactly the addresses in `l` and
ends at pointer `e` (the `next` of the last node in `l`, or `p` itself if
`l` is empty). -/

def chainSeg {α : Type} (h : Heap α) : Option Nat → List Nat → Option Nat → Prop
  | p, [], e => p = e
  | p, a :: l, e => p = some a ∧ ∃ n, h a = some n ∧ chainSeg h n.next l e

/-- Structural wellformedness of the queue: either both pointers are null,
or the addresses from `head` form a duplicate-free chain of allocated
nodes whose last address is exactly what `tail` points to, with the last
node's `next` null, all addresses below the allocation counter. -/
def Queue.WF {α : Type} (q : Queue α) : Prop :=
  (q.head = none ∧ q.tail = none) ∨
  ∃ l t, chainSeg q.heap q.head (l ++ [t]) none ∧ q.tail = some t ∧
    (l ++ [t]).Nodup ∧ ∀ x ∈ l ++ [t], x < q.alloc

/-- Wellformedness of the RCU list: the addresses from `head` form a
duplicate-free, bounded chain terminated by null, and `len` equals the
number of nodes in that chain. -/
def RcuList.WF {α : Type} (s : RcuList α) : Prop :=
  ∃ l, chainSeg s.heap s.head l none ∧ l.Nodup ∧
    (∀ x ∈ l, x < s.alloc) ∧ s.len = l.length

/-- A completed queue operation. -/
inductive QOp (α : Type) where
  | push (x : α)
  | pop

/-- Effect of one completed queue operation on the state. -/
def Queue.step {α : Type} (q : Queue α) : QOp α → Queue α
  | .push x => q.push x
  | .pop => (q.pop).2

/-- The queue state after a sequence of completed operations from `new`. -/
def Queue.run {α : Type} (ops : List (QOp α)) : Queue α :=
  ops.foldl Queue.step Queue.new

/-- A completed RCU-list operation. -/
inductive LOp (α : Type) where
  | push (x : α)
  | pop

/-- Effect of one completed list operation on the state. -/
def RcuList.step {α : Type} (s : RcuList α) : LOp α → RcuList α
  | .push x => s.push_front x
  | .pop => (s.pop_front).2

/-- The list state after a sequence of completed operations from `new`. -/
def RcuList.run {α : Type} (ops : List (LOp α)) : RcuList α :=
  ops.foldl RcuList.step RcuList.new

/-! ## BinarySemaphore (src/semaphore/binary_semaphore.rs)

The `AtomicU32` state takes three values, per the source comment:
2 = permit remaining (free), 1 = no permit and no thread waiting,
0 = no permit and threads waiting. -/

/-- State value 2: a permit remains (free). -/
def bsFree : Nat := 2

/-- State value 1: no permit remaining, no threads waiting. -/
def bsHeldQuiet : Nat := 1

/-- State value 0: no permit remaining, threads waiting. -/
def bsHeldBusy : Nat := 0

/-- `Drop for BinaryPermit`: `state.swap(2, Release)`, then `wake_one` iff
the swapped-out prior value was 0.  Returns the new state value paired
with the number of wake calls issued. -/
def binaryPermitDrop (state : Nat) : Nat × Nat :=
  (bsFree, if state = bsHeldBusy then 1 else 0)

/-! ## Counting Semaphore (src/semaphore.rs) -/

/-- Outcome of `Semaphore::aquire_n` run by a single thread: the `assert!`
fires (`panic`), the thread waits forever on the word (`blocked`), or a
`Permit { state := permit }` is returned with the counter lowered to
`counter`. -/
inductive AquireResult where
  | panic
  | blocked
  | ok (permit : Nat) (counter : Nat)
deriving Repr, DecidableEq

/-- `Semaphore { state: AtomicU32, max_permits: u32 }`. -/
structure Semaphore where
  state : Nat
  max_permits : Nat
deriving Repr, DecidableEq

/-- `Semaphore::new(value)`: counter and maximum both `value`. -/
def Semaphore.new (value : Nat) : Semaphore := ⟨value, value⟩

/-- `Semaphore::aquire_n`, sequential semantics.  First
`assert!(n <= self.max_permits)` — violation panics.  Then the CAS loop:
if the loaded counter `s` satisfies `s ≥ n`, the compare-exchange of the
counter from `s` to `s - n` succeeds and `Permit { state: n }` is
returned; if `s < n` the thread waits on the word, which with no other
thread never changes — `blocked`. -/
def Semaphore.aquire_n (sem : Semaphore) (n : Nat) : AquireResult :=
  if n ≤ sem.max_permits then
    if n ≤ sem.state then .ok n (sem.state - n) else .blocked
  else .panic

/-- `u32` modulus: `fetch_add` on an `AtomicU32` wraps at `2 ^ 32`. -/
def U32 : Nat := 2 ^ 32

/-- A step of the counting-semaphore public contract: an `aquire_n n`
call, or the release (drop) of the `i`-th outstanding permit. -/
inductive SemOp where
  | acq (n : Nat)
  | rel (i : Nat)

/-- Semaphore plus the multiset of outstanding permit sizes (each
`Permit { state: n }` holds the `n` it will `fetch_add` back on drop). -/
structure SemSt where
  sem : Semaphore
  outstanding : List Nat

/-- One contract step.  A successful acquire lowers the counter and
records the permit; a panicking or blocking acquire leaves no state
change.  A release (`Drop for Permit`) removes the permit and
`fetch_add`s its size back onto the `u32` counter (wrapping), followed by
one `wake_one`; releasing a non-existent permit index is a no-op (such a
step is outside the contract). -/
def SemSt.step (st : SemSt) : SemOp → SemSt
  | .acq n =>
    match st.sem.aquire_n n with
    | .ok p c => ⟨⟨c, st.sem.max_permits⟩, p :: st.outstanding⟩
    | _ => st
  | .rel i =>
    match st.outstanding[i]? with
    | some n => ⟨⟨(st.sem.state + n) % U32, st.sem.max_permits⟩, st.outstanding.eraseIdx i⟩
    | none => st

/-- State after a sequence of contract steps from `Semaphore::new m`. -/
def SemSt.run (m : Nat) (ops : List SemOp) : SemSt :=
  ops.foldl SemSt.step ⟨Semaphore.new m, []⟩

/-! ## Mutex (src/mutex.rs)

`Mutex<T> { semaphore: BinarySemaphore, value: UnsafeCell<T> }`.  Its
`lock` method reads: `MutexGuard { mutex: self, permit: self.semaphore.wait() }`. -/

/-- The method names `impl BinarySemaphore` defines
(src/semaphore/binary_semaphore.rs): `aquire`, `release`, `get_count`.
No trait impl or other `impl` block adds further methods callable on a
`BinarySemaphore` receiver. -/
def binarySemaphoreMethods : List String := ["aquire", "release", "get_count"]

/-- The method `Mutex::lock` invokes on `self.semaphore` (mutex.rs line
44): `wait`. -/
def mutexLockCallee : String := "wait"

/-! ## Chain lemmas -/

theorem chainSeg_nil {α : Type} {h : Heap α} {p e : Option Nat} :
    chainSeg h p [] e ↔ p = e := Iff.rfl

theorem chainSeg_cons {α : Type} {h : Heap α} {p e : Option Nat} {a : Nat} {l : List Nat} :
    chainSeg h p (a :: l) e ↔
      p = some a ∧ ∃ n, h a = some n ∧ chainSeg h n.next l e := Iff.rfl

theorem chainSeg_none {α : Type} {h : Heap α} {l : List Nat} {e : Option Nat}
    (hc : chainSeg h none l e) : l = [] ∧ e = none := by
  cases l with
  | nil => exact ⟨rfl, (chainSeg_nil.mp hc).symm⟩
  | cons a l => exact absurd (chainSeg_cons.mp hc).1 (by simp)

theorem chainSeg_congr {α : Type} {h h' : Heap α} {p e : Option Nat} {l : List Nat}
    (hc : chainSeg h p l e) (hh : ∀ x ∈ l, h' x = h x) : chainSeg h' p l e := by
  induction l generalizing p with
  | nil => exact hc
  | cons a l ih =>
    obtain ⟨hp, n, hn, hrest⟩ := chainSeg_cons.mp hc
    exact chainSeg_cons.mpr ⟨hp, n, (hh a (by simp)).trans hn,
      ih hrest (fun x hx => hh x (by simp [hx]))⟩

theorem chainSeg_append {α : Type} {h : Heap α} {p q e : Option Nat} {l₁ l₂ : List Nat}
    (h1 : chainSeg h p l₁ q) (h2 : chainSeg h q l₂ e) : chainSeg h p (l₁ ++ l₂) e := by
  induction l₁ generalizing p with
  | nil => rw [chainSeg_nil.mp h1]; exact h2
  | cons a l ih =>
    obtain ⟨hp, n, hn, hrest⟩ := chainSeg_cons.mp h1
    exact chainSeg_cons.mpr ⟨hp, n, hn, ih hrest⟩

theorem chainSeg_split_last {α : Type} {h : Heap α} {p : Option Nat} {l : List Nat} {t : Nat}
    (hc : chainSeg h p (l ++ [t]) none) :
    ∃ tn, h t = some tn ∧ tn.next = none ∧ chainSeg h p l (some t) := by
  induction l generalizing p with
  | nil =>
    obtain ⟨hp, n, hn, hrest⟩ := chainSeg_cons.mp hc
    exact ⟨n, hn, chainSeg_nil.mp hrest, chainSeg_nil.mpr hp⟩
  | cons a l ih =>
    obtain ⟨hp, n, hn, hrest⟩ := chainSeg_cons.mp hc
    obtain ⟨tn, htn, hnext, hseg⟩ := ih hrest
    exact ⟨tn, htn, hnext, chainSeg_cons.mpr ⟨hp, n, hn, hseg⟩⟩

/-! ## Claim theorems (part 1) -/

/-- Claim C1: on the LockFreeQueue used sequentially, pushing 1, 2, 3 from a
new empty queue and popping three times returns some 1, some 2, some 3 in
that order, and a fourth pop returns none. -/
theorem claim_C1_queue_fifo :
    (Queue.pop (Queue.push (Queue.push (Queue.push Queue.new (1 : Nat)) 2) 3)).1 = some 1 ∧
    (Queue.pop (Queue.pop
      (Queue.push (Queue.push (Queue.push Queue.new (1 : Nat)) 2) 3)).2).1 = some 2 ∧
    (Queue.pop (Queue.pop (Queue.pop
      (Queue.push (Queue.push (Queue.push Queue.new (1 : Nat)) 2) 3)).2).2).1 = some 3 ∧
    (Queue.pop (Queue.pop (Queue.pop (Queue.pop
      (Queue.push (Queue.push (Queue.push Queue.new (1 : Nat)) 2) 3)).2).2).2).1 = none := by
  decide

/-- Claim C5: on the RcuList starting empty, push_front 1 then push_front 2
yields the list [2, 1] with length 2; pop_front returns some 2 leaving
length 1; a second pop_front returns some 1 leaving length 0; a third
pop_front returns none. -/
theorem claim_C5_rcu_round_trip :
    RcuList.readList (RcuList.push_front (RcuList.push_front RcuList.new (1 : Nat)) 2)
      = [2, 1] ∧
    (RcuList.push_front (RcuList.push_front RcuList.new (1 : Nat)) 2).len = 2 ∧
    (RcuList.pop_front
      (RcuList.push_front (RcuList.push_front RcuList.new (1 : Nat)) 2)).1 = some 2 ∧
    (RcuList.pop_front
      (RcuList.push_front (RcuList.push_front RcuList.new (1 : Nat)) 2)).2.len = 1 ∧
    (RcuList.pop_front (RcuList.pop_front
      (RcuList.push_front (RcuList.push_front RcuList.new (1 : Nat)) 2)).2).1 = some 1 ∧
    (RcuList.pop_front (RcuList.pop_front
      (RcuList.push_front (RcuList.push_front RcuList.new (1 : Nat)) 2)).2).2.len = 0 ∧
    (RcuList.pop_front (RcuList.pop_front (RcuList.pop_front
      (RcuList.push_front (RcuList.push_front RcuList.new (1 : Nat)) 2)).2).2).1 = none := by
  decide

/-- Claim C7: dropping a BinaryPermit swaps the semaphore state to free (2)
unconditionally, and issues exactly one wake if and only if the prior state
was held-with-waiters (0); in particular a prior held-no-waiters state (1)
issues no wake. -/
theorem claim_C7_binary_release (s : Nat) :
    (binaryPermitDrop s).1 = bsFree ∧
    ((binaryPermitDrop s).2 = 1 ↔ s = bsHeldBusy) ∧
    (s = bsHeldQuiet → (binaryPermitDrop s).2 = 0) := by
  refine ⟨rfl, ?_, ?_⟩
  · by_cases hs : s = bsHeldBusy <;> simp [binaryPermitDrop, hs]
  · intro hs
    simp [binaryPermitDrop, hs, bsHeldQuiet, bsHeldBusy]

/-- Witness for C7: release from state 1 issues no wake; release from
state 0 issues exactly one wake. -/
theorem claim_C7_binary_release_witness :
    (binaryPermitDrop 1).2 = 0 ∧ (binaryPermitDrop 0).2 = 1 :=
  ⟨(claim_C7_binary_release 1).2.2 rfl, ((claim_C7_binary_release 0).2.1).mpr rfl⟩

/-- Claim C8: popping an empty LockFreeQueue (null head) and popping an
empty RcuList (null head) each return none and leave the whole state —
head, tail, heap and (for the list) the length counter — unchanged. -/
theorem claim_C8_empty_pop (α : Type) :
    (∀ q : Queue α, q.head = none → q.pop = (none, q)) ∧
    (∀ s : RcuList α, s.head = none → s.pop_front = (none, s)) := by
  constructor
  · intro q h
    unfold Queue.pop
    rw [h]
  · intro s h
    unfold RcuList.pop_front
    rw [h]

/-- Witness for C8: the new queue and the new list are empty-headed, and
popping each returns none with the state unchanged. -/
theorem claim_C8_empty_pop_witness :
    (Queue.new : Queue Nat).pop = (none, Queue.new) ∧
    (RcuList.new : RcuList Nat).pop_front = (none, RcuList.new) :=
  ⟨(claim_C8_empty_pop Nat).1 Queue.new rfl, (claim_C8_empty_pop Nat).2 RcuList.new rfl⟩

/-- Counterexample to claim C3 as stated: `aquire_n 0` on a fresh
semaphore with `max_permits = 3` does not fault — it silently succeeds,
returning a zero-permit `Permit` and leaving the counter at 3. -/
theorem claim_C3_counterexample :
    (Semaphore.new 3).aquire_n 0 = .ok 0 3 ∧ (Semaphore.new 3).aquire_n 0 ≠ .panic := by
  constructor <;> decide

/-- Claim C3, amended: `aquire_n n` with `n > max_permits` signals the
fatal assert fault, and a successful acquire grants exactly `n` (no
clamping) while lowering the counter by exactly `n`; but `n = 0` is not
rejected — it silently succeeds with a zero-permit token, leaving the
counter unchanged. -/
theorem claim_C3_amended_aquire_n (sem : Semaphore) (n : Nat) :
    (sem.max_permits < n → sem.aquire_n n = .panic) ∧
    (n = 0 → sem.aquire_n n = .ok 0 sem.state) ∧
    (∀ p c, sem.aquire_n n = .ok p c → p = n ∧ c = sem.state - n ∧ n ≤ sem.max_permits) := by
  refine ⟨?_, ?_, ?_⟩
  · intro hlt
    unfold Semaphore.aquire_n
    rw [if_neg (by omega)]
  · intro h0
    subst h0
    simp [Semaphore.aquire_n]
  · intro p c hok
    unfold Semaphore.aquire_n at hok
    by_cases h1 : n ≤ sem.max_permits
    · rw [if_pos h1] at hok
      by_cases h2 : n ≤ sem.state
      · rw [if_pos h2] at hok
        injection hok with hp hc
        exact ⟨hp.symm, hc.symm, h1⟩
      · rw [if_neg h2] at hok
        cases hok
    · rw [if_neg h1] at hok
      cases hok

/-- Witness for the amended C3: requesting 4 of 3 permits panics;
requesting 0 silently succeeds; requesting 2 of 3 grants exactly 2. -/
theorem claim_C3_amended_witness :
    (Semaphore.new 3).aquire_n 4 = .panic ∧
    (Semaphore.new 3).aquire_n 0 = .ok 0 3 ∧
    (2 = 2 ∧ 1 = (Semaphore.new 3).state - 2 ∧ 2 ≤ (Semaphore.new 3).max_permits) :=
  ⟨(claim_C3_amended_aquire_n (Semaphore.new 3) 4).1 (by decide),
   (claim_C3_amended_aquire_n (Semaphore.new 3) 0).2.1 rfl,
   (claim_C3_amended_aquire_n (Semaphore.new 3) 2).2.2 2 1 rfl⟩

/-- Claim C2 (code bug): `Mutex::lock` is specified to delegate to the
BinarySemaphore acquire operation, but the source calls `self.semaphore.wait()`,
and `wait` is not among the methods `BinarySemaphore` defines (its acquire
is spelled `aquire`), so the call cannot resolve and the crate does not
compile. -/
theorem claim_C2_lock_callee_missing :
    mutexLockCallee ∉ binarySemaphoreMethods ∧ "aquire" ∈ binarySemaphoreMethods := by
  decide


theorem queue_wf_new {α : Type} : (Queue.new : Queue α).WF :=
  Or.inl ⟨rfl, rfl⟩

theorem queue_wf_push {α : Type} (q : Queue α) (x : α) (hw : q.WF) : (q.push x).WF := by
  unfold Queue.push
  split
  · right
    refine ⟨[], q.alloc, ?_, rfl, by simp, by simp⟩
    exact chainSeg_cons.mpr ⟨rfl, ⟨x, none⟩, by simp [hupd], chainSeg_nil.mpr rfl⟩
  · next t htail =>
    rcases hw with ⟨hh, ht⟩ | ⟨l, t', hc, ht, hnd, hb⟩
    · rw [htail] at ht
      simp at ht
    · have htt : t = t' := Option.some.inj (htail.symm.trans ht)
      subst htt
      have htb : t < q.alloc := hb t (by simp)
      have hta : t ≠ q.alloc := Nat.ne_of_lt htb
      have haT : q.alloc ≠ t := Ne.symm hta
      obtain ⟨tn, htn, hnext, hseg⟩ := chainSeg_split_last hc
      have h1t : hupd q.heap q.alloc ⟨x, none⟩ t = some tn := by
        simpa [hupd, hta] using htn
      split
      · next tn' htn' =>
        have htn'' : tn = tn' := Option.some.inj (h1t.symm.trans htn')
        subst htn''
        right
        have hnd' := List.nodup_append.mp hnd
        have htl : t ∉ l := fun hmem => hnd'.2.2 hmem (by simp)
        refine ⟨l ++ [t], q.alloc, ?_, rfl, ?_, ?_⟩
        · have hseg2 : chainSeg
              (hupd (hupd q.heap q.alloc ⟨x, none⟩) t ⟨tn.elem, some q.alloc⟩)
              q.head l (some t) := by
            apply chainSeg_congr hseg
            intro y hy
            have hyt : y ≠ t := fun h => htl (h ▸ hy)
            have hya : y ≠ q.alloc := Nat.ne_of_lt (hb y (by simp [hy]))
            simp [hupd, hyt, hya]
          have hsegt : chainSeg
              (hupd (hupd q.heap q.alloc ⟨x, none⟩) t ⟨tn.elem, some q.alloc⟩)
              (some t) [t] (some q.alloc) :=
            chainSeg_cons.mpr ⟨rfl, ⟨tn.elem, some q.alloc⟩, by simp [hupd], chainSeg_nil.mpr rfl⟩
          have hsega : chainSeg
              (hupd (hupd q.heap q.alloc ⟨x, none⟩) t ⟨tn.elem, some q.alloc⟩)
              (some q.alloc) [q.alloc] none :=
            chainSeg_cons.mpr ⟨rfl, ⟨x, none⟩, by simp [hupd, haT], chainSeg_nil.mpr rfl⟩
          exact chainSeg_append (chainSeg_append hseg2 hsegt) hsega
        · have hdisj : (l ++ [t]).Disjoint [q.alloc] := by
            intro y hy hy2
            rw [List.mem_singleton] at hy2
            subst hy2
            exact absurd (hb _ hy) (Nat.lt_irrefl _)
          exact List.Nodup.append hnd (List.nodup_singleton _) hdisj
        · intro y hy
          show y < q.alloc + 1
          rcases List.mem_append.mp hy with h | h
          · exact Nat.lt_succ_of_lt (hb y h)
          · rw [List.mem_singleton] at h
            omega
      · next htn' =>
        rw [h1t] at htn'
        cases htn'

theorem queue_wf_pop {α : Type} (q : Queue α) (hw : q.WF) : (q.pop).2.WF := by
  unfold Queue.pop
  split
  · exact hw
  · next hd hh =>
    rcases hw with ⟨h1, h2⟩ | ⟨l, t, hc, ht, hnd, hb⟩
    · rw [hh] at h1
      simp at h1
    · rw [hh] at hc
      split
      · next hn =>
        -- q.heap hd = none: impossible, the head of the chain is allocated
        cases l with
        | nil =>
          obtain ⟨hp, n, hcn, -⟩ := chainSeg_cons.mp hc
          have : hd = t := Option.some.inj hp
          rw [this, hcn] at hn
          cases hn
        | cons b l₁ =>
          rw [List.cons_append] at hc
          obtain ⟨hp, n, hcn, -⟩ := chainSeg_cons.mp hc
          have : hd = b := Option.some.inj hp
          rw [this, hcn] at hn
          cases hn
      · next node hnode =>
        cases l with
        | nil =>
          obtain ⟨hp, n, hcn, hrest⟩ := chainSeg_cons.mp hc
          obtain rfl : hd = t := Option.some.inj hp
          have hnn : node = n := Option.some.inj (hnode.symm.trans hcn)
          subst hnn
          have hnext : node.next = none := chainSeg_nil.mp hrest
          rw [hnext]
          simp only [ht, if_pos rfl, reduceIte]
          exact Or.inl ⟨rfl, rfl⟩
        | cons b l₁ =>
          rw [List.cons_append] at hc
          obtain ⟨hp, n, hcn, hrest⟩ := chainSeg_cons.mp hc
          obtain rfl : hd = b := Option.some.inj hp
          have hnn : node = n := Option.some.inj (hnode.symm.trans hcn)
          subst hnn
          have hne : node.next ≠ none := by
            cases hl : l₁ ++ [t] with
            | nil => simp at hl
            | cons c rest =>
              rw [hl] at hrest
              obtain ⟨hp2, -⟩ := chainSeg_cons.mp hrest
              rw [hp2]
              simp
          rw [if_neg hne]
          right
          rw [List.cons_append] at hnd hb
          have hndc := List.nodup_cons.mp hnd
          refine ⟨l₁, t, ?_, ht, hndc.2, ?_⟩
          · apply chainSeg_congr hrest
            intro y hy
            have hyhd : y ≠ hd := fun h => hndc.1 (h ▸ hy)
            simp [hfree, hyhd]
          · intro y hy
            exact hb y (by simp [hy])

theorem queue_wf_run {α : Type} (ops : List (QOp α)) : (Queue.run ops).WF := by
  suffices h : ∀ q : Queue α, q.WF → (ops.foldl Queue.step q).WF from
    h Queue.new queue_wf_new
  induction ops with
  | nil => exact fun q hq => hq
  | cons op ops ih =>
    intro q hq
    apply ih
    cases op with
    | push x => exact queue_wf_push q x hq
    | pop => exact queue_wf_pop q hq

theorem rcu_wf_new {α : Type} : (RcuList.new : RcuList α).WF :=
  ⟨[], rfl, List.nodup_nil, by simp, rfl⟩

theorem rcu_wf_push {α : Type} (s : RcuList α) (x : α) (hw : s.WF) :
    (s.push_front x).WF := by
  obtain ⟨l, hc, hnd, hb, hlen⟩ := hw
  refine ⟨s.alloc :: l, ?_, ?_, ?_, ?_⟩
  · refine chainSeg_cons.mpr ⟨rfl, ⟨x, s.head⟩, by simp [RcuList.push_front, hupd], ?_⟩
    apply chainSeg_congr hc
    intro y hy
    have hya : y ≠ s.alloc := Nat.ne_of_lt (hb y hy)
    simp [RcuList.push_front, hupd, hya]
  · refine List.nodup_cons.mpr ⟨?_, hnd⟩
    intro hmem
    exact absurd (hb _ hmem) (Nat.lt_irrefl _)
  · intro y hy
    show y < s.alloc + 1
    rcases List.mem_cons.mp hy with h | h
    · omega
    · exact Nat.lt_succ_of_lt (hb y h)
  · show s.len + 1 = (s.alloc :: l).length
    rw [hlen]
    simp

theorem rcu_wf_pop {α : Type} (s : RcuList α) (hw : s.WF) : (s.pop_front).2.WF := by
  obtain ⟨l, hc, hnd, hb, hlen⟩ := hw
  unfold RcuList.pop_front
  split
  · exact ⟨l, hc, hnd, hb, hlen⟩
  · next hd hh =>
    rw [hh] at hc
    cases l with
    | nil => exact absurd (chainSeg_nil.mp hc) (by simp)
    | cons b l₁ =>
      obtain ⟨hp, n, hcn, hrest⟩ := chainSeg_cons.mp hc
      obtain rfl : hd = b := Option.some.inj hp
      split
      · next hn =>
        rw [hcn] at hn
        cases hn
      · next node hnode =>
        have hnn : node = n := Option.some.inj (hnode.symm.trans hcn)
        subst hnn
        have hndc := List.nodup_cons.mp hnd
        refine ⟨l₁, ?_, hndc.2, ?_, ?_⟩
        · apply chainSeg_congr hrest
          intro y hy
          have hyhd : y ≠ hd := fun h => hndc.1 (h ▸ hy)
          simp [hfree, hyhd]
        · intro y hy
          exact hb y (by simp [hy])
        · show s.len - 1 = l₁.length
          rw [hlen]
          simp

theorem rcu_wf_run {α : Type} (ops : List (LOp α)) : (RcuList.run ops).WF := by
  suffices h : ∀ s : RcuList α, s.WF → (ops.foldl RcuList.step s).WF from
    h RcuList.new rcu_wf_new
  induction ops with
  | nil => exact fun s hs => hs
  | cons op ops ih =>
    intro s hs
    apply ih
    cases op with
    | push x => exact rcu_wf_push s x hs
    | pop => exact rcu_wf_pop s hs

/-- Claim C4: in any quiescent state reached from a new LockFreeQueue by a
sequence of completed push and pop operations, head is null iff tail is
null, and when head is non-null the next links from head traverse a chain
whose last node is exactly the one tail points to, that node's next being
null. -/
theorem claim_C4_queue_structural_invariant {α : Type} (ops : List (QOp α)) :
    ((Queue.run ops).head = none ↔ (Queue.run ops).tail = none) ∧
    (∀ hd, (Queue.run ops).head = some hd →
      ∃ l t, chainSeg (Queue.run ops).heap (some hd) (l ++ [t]) none ∧
        (Queue.run ops).tail = some t) := by
  rcases queue_wf_run ops with ⟨h1, h2⟩ | ⟨l, t, hc, ht, hnd, hb⟩
  · constructor
    · rw [h1, h2]
    · intro hd hhd
      rw [h1] at hhd
      cases hhd
  · constructor
    · constructor
      · intro hhn
        rw [hhn] at hc
        have := (chainSeg_none hc).1
        simp at this
      · intro htn
        rw [htn] at ht
        cases ht
    · intro hd hhd
      rw [hhd] at hc
      exact ⟨l, t, hc, ht⟩

/-- Witness for C4 at the concrete run consisting of one push. -/
theorem claim_C4_witness :
    ∃ l t, chainSeg (Queue.run [QOp.push (5 : Nat)]).heap (some 0) (l ++ [t]) none ∧
      (Queue.run [QOp.push (5 : Nat)]).tail = some t :=
  (claim_C4_queue_structural_invariant [QOp.push (5 : Nat)]).2 0 rfl

/-- Claim C10: after any sequence of push_front and pop_front operations on
a new RcuList, the length counter equals the number of nodes reachable from
head along next links, and is_empty holds exactly when head is null. -/
theorem claim_C10_rcu_len_invariant {α : Type} (ops : List (LOp α)) :
    ∃ l, chainSeg (RcuList.run ops).heap (RcuList.run ops).head l none ∧
      (RcuList.run ops).len = l.length ∧
      ((RcuList.run ops).is_empty = true ↔ (RcuList.run ops).head = none) := by
  obtain ⟨l, hc, hnd, hb, hlen⟩ := rcu_wf_run ops
  refine ⟨l, hc, hlen, ?_, ?_⟩
  · intro he
    have hz : (RcuList.run ops).len = 0 := by
      simpa [RcuList.is_empty] using he
    rw [hlen] at hz
    have hl : l = [] := List.length_eq_zero.mp hz
    rw [hl] at hc
    exact chainSeg_nil.mp hc
  · intro hh
    rw [hh] at hc
    have hl := (chainSeg_none hc).1
    simp [RcuList.is_empty, hlen, hl]

theorem sum_eq_of_getElem {l : List Nat} {i n : Nat} (h : l[i]? = some n) :
    l.sum = n + (l.eraseIdx i).sum := by
  induction l generalizing i with
  | nil => simp at h
  | cons a l ih =>
    cases i with
    | zero =>
      simp at h
      subst h
      simp [List.eraseIdx]
    | succ j =>
      simp at h
      rw [List.eraseIdx, List.sum_cons, List.sum_cons, ih h]
      omega

theorem SemSt.step_inv {m : Nat} (hm : m < U32) (st : SemSt) (op : SemOp)
    (h1 : st.sem.max_permits = m) (h2 : st.sem.state + st.outstanding.sum = m) :
    (st.step op).sem.max_permits = m ∧
    (st.step op).sem.state + (st.step op).outstanding.sum = m := by
  cases op with
  | acq n =>
    by_cases hn : n ≤ st.sem.max_permits
    · by_cases hs : n ≤ st.sem.state
      · have ha : st.sem.aquire_n n = .ok n (st.sem.state - n) := by
          unfold Semaphore.aquire_n
          rw [if_pos hn, if_pos hs]
        have hstep : st.step (.acq n) =
            ⟨⟨st.sem.state - n, st.sem.max_permits⟩, n :: st.outstanding⟩ := by
          dsimp only [SemSt.step]
          rw [ha]
        rw [hstep]
        refine ⟨h1, ?_⟩
        simp only [List.sum_cons]
        omega
      · have ha : st.sem.aquire_n n = .blocked := by
          unfold Semaphore.aquire_n
          rw [if_pos hn, if_neg hs]
        have hstep : st.step (.acq n) = st := by
          dsimp only [SemSt.step]
          rw [ha]
        rw [hstep]
        exact ⟨h1, h2⟩
    · have ha : st.sem.aquire_n n = .panic := by
        unfold Semaphore.aquire_n
        rw [if_neg hn]
      have hstep : st.step (.acq n) = st := by
        dsimp only [SemSt.step]
        rw [ha]
      rw [hstep]
      exact ⟨h1, h2⟩
  | rel i =>
    cases hi : st.outstanding[i]? with
    | none =>
      have hstep : st.step (.rel i) = st := by
        dsimp only [SemSt.step]
        rw [hi]
      rw [hstep]
      exact ⟨h1, h2⟩
    | some n =>
      have hstep : st.step (.rel i) =
          ⟨⟨(st.sem.state + n) % U32, st.sem.max_permits⟩, st.outstanding.eraseIdx i⟩ := by
        dsimp only [SemSt.step]
        rw [hi]
      rw [hstep]
      refine ⟨h1, ?_⟩
      have hsum := sum_eq_of_getElem hi
      have hle : st.sem.state + n ≤ m := by omega
      show (st.sem.state + n) % U32 + (st.outstanding.eraseIdx i).sum = m
      rw [Nat.mod_eq_of_lt (Nat.lt_of_le_of_lt hle hm)]
      omega

theorem SemSt.run_inv (m : Nat) (hm : m < U32) (ops : List SemOp) :
    (SemSt.run m ops).sem.max_permits = m ∧
    (SemSt.run m ops).sem.state + (SemSt.run m ops).outstanding.sum = m := by
  suffices h : ∀ st : SemSt, st.sem.max_permits = m → st.sem.state + st.outstanding.sum = m →
      (ops.foldl SemSt.step st).sem.max_permits = m ∧
      (ops.foldl SemSt.step st).sem.state + (ops.foldl SemSt.step st).outstanding.sum = m from
    h ⟨Semaphore.new m, []⟩ rfl (by simp [Semaphore.new])
  induction ops with
  | nil => exact fun st ha hb => ⟨ha, hb⟩
  | cons op ops ih =>
    intro st ha hb
    obtain ⟨ha', hb'⟩ := SemSt.step_inv hm st op ha hb
    exact ih (st.step op) ha' hb'

/-- Claim C6: starting from a new counting semaphore with counter equal to
max_permits, along every sequence of acquire and permit-release steps of
the public contract the counter stays in the range zero to max_permits
(the outstanding permits accounting for the difference exactly); and a
successful acquire of n grants exactly n, subtracting it only when the
counter is at least n. -/
theorem claim_C6_semaphore_counter_bounds (m : Nat) (ops : List SemOp) (hm : m < U32) :
    (SemSt.run m ops).sem.state ≤ m ∧
    (SemSt.run m ops).sem.state + (SemSt.run m ops).outstanding.sum = m ∧
    (∀ (sem : Semaphore) (n p c : Nat), sem.aquire_n n = .ok p c →
      n ≤ sem.state ∧ p = n ∧ c = sem.state - n) := by
  obtain ⟨-, hb⟩ := SemSt.run_inv m hm ops
  refine ⟨by omega, hb, ?_⟩
  intro sem n p c hok
  unfold Semaphore.aquire_n at hok
  by_cases h1 : n ≤ sem.max_permits
  · rw [if_pos h1] at hok
    by_cases h2 : n ≤ sem.state
    · rw [if_pos h2] at hok
      injection hok with hp hc
      exact ⟨h2, hp.symm, hc.symm⟩
    · rw [if_neg h2] at hok
      cases hok
  · rw [if_neg h1] at hok
    cases hok

/-- Witness for C6 at max_permits 3 with acquires of 2 and 3 and one
release. -/
theorem claim_C6_witness :
    (SemSt.run 3 [SemOp.acq 2, SemOp.rel 0, SemOp.acq 3]).sem.state ≤ 3 ∧
    (SemSt.run 3 [SemOp.acq 2, SemOp.rel 0, SemOp.acq 3]).sem.state +
      (SemSt.run 3 [SemOp.acq 2, SemOp.rel 0, SemOp.acq 3]).outstanding.sum = 3 ∧
    (∀ (sem : Semaphore) (n p c : Nat), sem.aquire_n n = .ok p c →
      n ≤ sem.state ∧ p = n ∧ c = sem.state - n) :=
  claim_C6_semaphore_counter_bounds 3 [SemOp.acq 2, SemOp.rel 0, SemOp.acq 3] (by decide)

/-- Witness for C10 at the concrete run consisting of one push_front. -/
theorem claim_C10_witness :
    ∃ l, chainSeg (RcuList.run [LOp.push (7 : Nat)]).heap
        (RcuList.run [LOp.push (7 : Nat)]).head l none ∧
      (RcuList.run [LOp.push (7 : Nat)]).len = l.length ∧
      ((RcuList.run [LOp.push (7 : Nat)]).is_empty = true ↔
        (RcuList.run [LOp.push (7 : Nat)]).head = none) :=
  claim_C10_rcu_len_invariant [LOp.push (7 : Nat)]
